import Mathlib

/-!
Verification of the bounded concurrent executor, retry loop, schedule
algebra, cancellation tokens and fetch wrappers described by the
`effect-slides` repository (`src/slides.md`, `src/examples/*.ts`).

Asynchronous JavaScript is embedded as a small-step transition system:
one step is the settlement of one in-flight promise together with the
synchronous continuation (`then` / `catch` callback) it runs.  A run of
the executor is determined by the list of scheduler choices saying which
in-flight operation settles next, so quantifying over all choice lists
quantifies over all interleavings of completion times.
-/

namespace EffectSlides

/-! # Definitions -/

/-! ## Bounded executor without cancellation (`src/slides.md` lines 137-164)

```
const getLeads = (ids: string[], limit = 5) => {
  const remaining = ids.slice(0, ids.length)
    .map((id, index) => [id, index] as const).reverse();
  const results: unknown[] = [];
  return new Promise<unknown[]>((resolve, reject) => {
    let pending = 0;
    for (let i = 0; i < limit; i++) { fetchRemaining(); }
    function fetchRemaining() {
      if (remaining.length > 0) {
        const [remainingToFetchId, remainingToFetchIdx] = remaining.pop()!;
        pending++;
        getLead(remainingToFetchId)
          .then((res) => { results[remainingToFetchIdx] = res; pending--; fetchRemaining(); })
          .catch((err) => reject(err));
      } else if (pending === 0) { resolve(results); }
    }
  });
};
```

`getLead` is the caller-supplied asynchronous operation; we embed it as a
function `op : I → Except E O` giving the settlement of its promise.
-/

namespace Bounded

/-- `ids.map((id, index) => [id, index])` starting at index `k`. -/
def enumerate {I : Type} : List I → Nat → List (I × Nat)
  | [], _ => []
  | x :: xs, k => (x, k) :: enumerate xs (k + 1)

/-- The executor's mutable state: the not-yet-dispatched tasks (the JS
`remaining` array, popped from its end), the `results` array (`none` is a
hole / JS `undefined`), the `pending` counter, the multiset of dispatched
but not yet settled operations, and the promise's settlement (`none`
while the promise is still pending; first settlement wins). -/
structure ExecState (I O E : Type) where
  remaining : List (I × Nat)
  results : List (Option O)
  pending : Nat
  inflight : List (I × Nat)
  settled : Option (Except E (List (Option O)))
  deriving Repr

/-- Settle the promise: `resolve` / `reject` are no-ops once settled. -/
def trySettle {I O E : Type} (s : ExecState I O E) (v : Except E (List (Option O))) :
    ExecState I O E :=
  match s.settled with
  | some _ => s
  | none => { s with settled := some v }

/-- The synchronous body of `fetchRemaining`: pop the last element of
`remaining` and dispatch it, or, when nothing remains and nothing is
pending, resolve with the results array.  (The asynchronous part — the
`then`/`catch` callbacks — is `complete` below.) -/
def fetchRemaining {I O E : Type} (s : ExecState I O E) : ExecState I O E :=
  match s.remaining.getLast? with
  | some t =>
      { s with
        remaining := s.remaining.dropLast
        pending := s.pending + 1
        inflight := t :: s.inflight }
  | none =>
      if s.pending = 0 then trySettle s (Except.ok s.results) else s

/-- Settlement of the `k`-th in-flight operation: on fulfilment the
`then` callback writes `results[idx]`, decrements `pending` and calls
`fetchRemaining()`; on rejection the `catch` callback calls
`reject(err)`. -/
def complete {I O E : Type} (op : I → Except E O) (s : ExecState I O E) (k : Nat) :
    ExecState I O E :=
  match s.inflight[k]? with
  | none => s
  | some (id, idx) =>
      let s1 := { s with inflight := s.inflight.eraseIdx k }
      match op id with
      | Except.ok res =>
          fetchRemaining
            { s1 with results := s1.results.set idx (some res), pending := s1.pending - 1 }
      | Except.error e => trySettle s1 (Except.error e)

/-- State right after `new Promise` runs the executor body's
declarations: `remaining` is the enumerated input reversed, `results` has
one hole per input. -/
def initState {I O E : Type} (ids : List I) : ExecState I O E :=
  { remaining := (enumerate ids 0).reverse
    results := List.replicate ids.length none
    pending := 0
    inflight := []
    settled := none }

/-- The `for (let i = 0; i < limit; i++) fetchRemaining();` start-up loop. -/
def startLoop {I O E : Type} : Nat → ExecState I O E → ExecState I O E
  | 0, s => s
  | n + 1, s => startLoop n (fetchRemaining s)

/-- A whole run of `getLeads ids limit` under a given interleaving: the
choice list says which in-flight operation settles at each step. -/
def run {I O E : Type} (ids : List I) (limit : Nat) (op : I → Except E O)
    (cs : List Nat) : ExecState I O E :=
  cs.foldl (complete op) (startLoop limit (initState ids))

/-! ### The executor invariant

`d` is the number of tasks dispatched so far, `f` is the number of
operations that settled with a rejection so far. -/

structure InvAt {I O E : Type} (ids : List I) (op : I → Except E O)
    (s : ExecState I O E) (d f : Nat) : Prop where
  d_le : d ≤ ids.length
  rem : s.remaining = ((enumerate ids 0).drop d).reverse
  res_len : s.results.length = ids.length
  pend : s.pending = s.inflight.length + f
  infl_lt : ∀ p ∈ s.inflight, p.2 < d
  infl_src : ∀ p ∈ s.inflight, ids[p.2]? = some p.1
  infl_res : ∀ p ∈ s.inflight, s.results[p.2]? = some none
  infl_nodup : (s.inflight.map Prod.snd).Nodup
  undisp : ∀ j, d ≤ j → j < ids.length → s.results[j]? = some none
  done_ok : ∀ j, j < d → (∀ p ∈ s.inflight, p.2 ≠ j) → ∀ x, ids[j]? = some x →
      ∀ r, op x = Except.ok r → s.results[j]? = some (some r)
  done_err : ∀ j, j < d → (∀ p ∈ s.inflight, p.2 ≠ j) → ∀ x, ids[j]? = some x →
      ∀ e, op x = Except.error e → s.results[j]? = some none
  nofail : f = 0 → ∀ j, j < d → (∀ p ∈ s.inflight, p.2 ≠ j) → ∀ x, ids[j]? = some x →
      ∃ r, op x = Except.ok r
  ok_settled : ∀ r : List (Option O), s.settled = some (Except.ok r) →
      r.length = ids.length ∧
        ∀ (j : Nat) (x : I), ids[j]? = some x →
          ∃ v, op x = Except.ok v ∧ r[j]? = some (some v)

def Inv {I O E : Type} (ids : List I) (op : I → Except E O) (s : ExecState I O E) : Prop :=
  ∃ d f, InvAt ids op s d f

end Bounded

/-! ## Bounded executor with fail-fast cancellation (`src/slides.md` lines 202-235)

```
const getLeads = (ids: string[], opts?: GetLeadsOptions) => {
  const limit = opts?.limit ?? 5;
  const controller = new AbortController();
  const remaining = ids.slice(0, ids.length).map((id, index) => [id, index] as const).reverse();
  const results: unknown[] = [];
  ...
  return new Promise<unknown[]>((resolve, reject) => {
    let pending = 0;
    for (let i = 0; i < limit; i++) { fetchRemaining(); }
    function fetchRemaining() {
      if (remaining.length > 0) {
        const [remainingToFetchId, remainingToFetchIdx] = remaining.pop()!;
        pending++;
        getLead(remainingToFetchId, { signal: controller.signal }).then((res) => {
            results[remainingToFetchIdx] = res; pending--; fetchRemaining();
          })
          .catch((err) => { controller.abort(); reject(err); });
      } else if (pending === 0) { resolve(results); }
    }
  });
};
```

The `aborted` field is the controller's state.  Every dispatched `getLead`
holds `controller.signal`: an in-flight `fetch` whose signal is aborted
before it settles settles with the abort rejection (`abortErr`) instead of
its own outcome — this is the DOM `fetch`/`AbortSignal` contract the
slide relies on. -/

namespace FailFast

/-- Executor state of the cancellable `getLeads`: the state of `Bounded`
plus the `AbortController`'s flag. -/
structure ExecState (I O E : Type) where
  remaining : List (I × Nat)
  results : List (Option O)
  pending : Nat
  inflight : List (I × Nat)
  settled : Option (Except E (List (Option O)))
  aborted : Bool
  deriving Repr

/-- `resolve` / `reject`: only the first settlement takes effect. -/
def trySettle {I O E : Type} (s : ExecState I O E) (v : Except E (List (Option O))) :
    ExecState I O E :=
  match s.settled with
  | some _ => s
  | none => { s with settled := some v }

/-- The synchronous body of `fetchRemaining`, as in `Bounded`. -/
def fetchRemaining {I O E : Type} (s : ExecState I O E) : ExecState I O E :=
  match s.remaining.getLast? with
  | some t =>
      { s with
        remaining := s.remaining.dropLast
        pending := s.pending + 1
        inflight := t :: s.inflight }
  | none =>
      if s.pending = 0 then trySettle s (Except.ok s.results) else s

/-- Settlement of the `k`-th in-flight `getLead`: if the controller was
aborted before this operation settled, the signalled `fetch` rejects with
the abort error; otherwise the operation settles with its own outcome.
The `catch` callback runs `controller.abort()` and then `reject(err)`. -/
def complete {I O E : Type} (op : I → Except E O) (abortErr : E)
    (s : ExecState I O E) (k : Nat) : ExecState I O E :=
  match s.inflight[k]? with
  | none => s
  | some (id, idx) =>
      let s1 := { s with inflight := s.inflight.eraseIdx k }
      match (if s.aborted then Except.error abortErr else op id : Except E O) with
      | Except.ok res =>
          fetchRemaining
            { s1 with results := s1.results.set idx (some res), pending := s1.pending - 1 }
      | Except.error e => trySettle { s1 with aborted := true } (Except.error e)

/-- State right after the declarations run: fresh controller, nothing
dispatched. -/
def initState {I O E : Type} (ids : List I) : ExecState I O E :=
  { remaining := (Bounded.enumerate ids 0).reverse
    results := List.replicate ids.length none
    pending := 0
    inflight := []
    settled := none
    aborted := false }

/-- The start-up dispatch loop. -/
def startLoop {I O E : Type} : Nat → ExecState I O E → ExecState I O E
  | 0, s => s
  | n + 1, s => startLoop n (fetchRemaining s)

/-- A whole run of the cancellable `getLeads` under one interleaving. -/
def run {I O E : Type} (ids : List I) (limit : Nat) (op : I → Except E O)
    (abortErr : E) (cs : List Nat) : ExecState I O E :=
  cs.foldl (complete op abortErr) (startLoop limit (initState ids))

/-- The cancellation invariant: the controller is aborted exactly when the
promise was rejected, a fulfilled promise means no operation is still in
flight, and the in-flight count never exceeds `pending`. -/
structure Inv2 {I O E : Type} (s : ExecState I O E) : Prop where
  abort_iff : s.aborted = true ↔ ∃ e, s.settled = some (Except.error e)
  ok_inflight : ∀ r : List (Option O), s.settled = some (Except.ok r) → s.inflight = []
  len_le : s.inflight.length ≤ s.pending

/-- Strengthening of `Inv2` that holds during the start-up loop. -/
def StartInv2 {I O E : Type} (s : ExecState I O E) : Prop :=
  Inv2 s ∧ (s.settled = none ∨ s.remaining = [])

end FailFast

/-! ## The retry loop `callWithRetry` (`src/slides.md` lines 259-273)

```
const callWithRetry = async <A>(
  fn: () => Promise<A>,
  opts?: RetryOptions,
  depth = 0
): Promise<A> => {
  try {
    return await fn();
  } catch (e) {
    if (depth > (opts?.limit ?? 10)) {
      throw e
    }
    await wait(Math.min((opts?.base ?? 2) ** depth * (opts?.exponent ?? 10), opts?.cap ?? 2000))
    return callWithRetry(fn, opts, depth + 1)
  }
}
```

`fn` may behave differently on each invocation, so it is embedded as a
function of the attempt number. -/

/-- The slide's `RetryOptions` with its default values. -/
structure RetryOptions where
  limit : Nat := 10
  cap : Nat := 2000
  base : Nat := 2
  exponent : Nat := 10

/-- The backoff wait before attempt `depth + 1`:
`Math.min(base ** depth * exponent, cap)`. -/
def retryDelay (opts : RetryOptions) (depth : Nat) : Nat :=
  min (opts.base ^ depth * opts.exponent) opts.cap

/-- The retry loop: try `fn`; on failure, rethrow the caught error `e`
once `depth > limit`, otherwise recurse at `depth + 1`. -/
def callWithRetry {A E : Type} (fn : Nat → Except E A) (opts : RetryOptions)
    (depth : Nat) : Except E A :=
  match fn depth with
  | Except.ok a => Except.ok a
  | Except.error e =>
      if h : depth > opts.limit then Except.error e
      else callWithRetry fn opts (depth + 1)
termination_by opts.limit + 1 - depth
decreasing_by simp_wf; omega

/-! ## The Schedule algebra

`src/slides.md` lines 510-527 compose `Schedule.exponential`,
`Schedule.spaced`, `Schedule.either`, `Schedule.upTo` and
`Schedule.whileInput` from `@effect/io/Schedule`; the combinators'
implementations are not part of this repository, so they are modelled
from the specification: a closed tagged-variant tree interpreted by one
recursive evaluator over a per-node state, with
`Decision = Halt | Continue(delay, nextState)` (spec sections 4.1 and 9).
Durations are in milliseconds as naturals. -/

/-- Modelled from the spec: the Schedule value tree.  The members
`exponential`, `spaced`, `upTo`, `either` and `whileInput` of
`@effect/io/Schedule` are not in the repository's sources. -/
inductive Schedule (X : Type) where
  | exponential (base : Nat) (factor : Nat)
  | spaced (interval : Nat)
  | upTo (maxElapsed : Nat) (inner : Schedule X)
  | either (s1 s2 : Schedule X)
  | whileInput (inner : Schedule X) (pred : X → Bool)

/-- Modelled from the spec: the `ScheduleState` threaded through repeated
decisions — recurrence count for `exponential`, cumulative elapsed delay
for `upTo`, independent sub-states for `either`'s members. -/
inductive ScheduleState where
  | exp (n : Nat)
  | unit
  | upto (elapsed : Nat) (inner : ScheduleState)
  | both (left right : ScheduleState)
  | wrap (inner : ScheduleState)
  deriving Repr, DecidableEq

/-- Modelled from the spec: `Decision = Halt | Continue(delay, nextState)`. -/
inductive Decision where
  | halt
  | cont (delay : Nat) (next : ScheduleState)
  deriving Repr, DecidableEq

/-- Modelled from the spec: the fresh state for one driver of a
Schedule. -/
def Schedule.initState {X : Type} : Schedule X → ScheduleState
  | .exponential _ _ => .exp 0
  | .spaced _ => .unit
  | .upTo _ inner => .upto 0 inner.initState
  | .either s1 s2 => .both s1.initState s2.initState
  | .whileInput inner _ => .wrap inner.initState

/-- Modelled from the spec: the recursive evaluator
`(input, state) -> Decision`.
`exponential`: always Continue with delay `base * factor ^ n`, state
`n + 1`.  `spaced`: always Continue with the constant interval.
`upTo`: Halt once cumulative elapsed delay would exceed `maxElapsed`.
`either`: run both members on their sub-states; Halt only if both Halt,
otherwise Continue with the minimum of the delays of the members that
continued (a halted member contributes no delay and keeps its state).
`whileInput`: evaluate the predicate on the input first; if false, Halt
without consulting the inner Schedule, else delegate.  A state whose
shape does not match the Schedule (never produced by `initState` and
`decide` themselves) halts. -/
def Schedule.decide {X : Type} : Schedule X → X → ScheduleState → Decision
  | .exponential base factor, _, .exp n =>
      .cont (base * factor ^ n) (.exp (n + 1))
  | .spaced interval, _, st => .cont interval st
  | .upTo maxElapsed inner, x, .upto elapsed stI =>
      match inner.decide x stI with
      | .halt => .halt
      | .cont delay stI' =>
          if maxElapsed < elapsed + delay then .halt
          else .cont delay (.upto (elapsed + delay) stI')
  | .either s1 s2, x, .both st1 st2 =>
      match s1.decide x st1, s2.decide x st2 with
      | .halt, .halt => .halt
      | .cont d1 st1', .halt => .cont d1 (.both st1' st2)
      | .halt, .cont d2 st2' => .cont d2 (.both st1 st2')
      | .cont d1 st1', .cont d2 st2' => .cont (min d1 d2) (.both st1' st2')
  | .whileInput inner pred, x, .wrap stI =>
      if pred x then
        match inner.decide x stI with
        | .halt => .halt
        | .cont delay stI' => .cont delay (.wrap stI')
      else .halt
  | .exponential _ _, _, _ => .halt
  | .upTo _ _, _, _ => .halt
  | .either _ _, _, _ => .halt
  | .whileInput _ _, _, _ => .halt

/-- Modelled from the spec: the retry loop of a `RetryingOperation`
(spec section 4.4, steps 2-6) driving one Schedule state across failures;
`op` is the fallible operation as a function of the attempt number, the
`fuel` bounds the number of attempts so the loop is total, and the
returned number counts the invocations of `op`. -/
def retryWithSchedule {A E : Type} (op : Nat → Except E A) (sched : Schedule E) :
    Nat → Nat → ScheduleState → Option (Except E A × Nat)
  | 0, _, _ => none
  | fuel + 1, attempt, st =>
      match op attempt with
      | Except.ok a => some (Except.ok a, attempt + 1)
      | Except.error e =>
          match sched.decide e st with
          | .halt => some (Except.error e, attempt + 1)
          | .cont _ st' => retryWithSchedule op sched fuel (attempt + 1) st'

/-- The error classification of the spec's `whileInput` scenario. -/
inductive ErrKind where
  | transient
  | fatal
  deriving Repr, DecidableEq

/-! ## Cancellation tokens

The spec's `CancellationToken` (sections 3, 4.3 and 9) is not implemented
in the repository's sources — `src/slides.md` lines 207-211 only wire one
`AbortSignal` to an `AbortController` — so the token registry is modelled
from the specification: tokens are named by numbers, the registry keeps
the set of triggered tokens and an explicit parent-to-children edge list,
`trigger` propagates one-directionally to all transitively linked
children, and `link` registers a child and triggers it immediately when
the parent is already triggered. -/

/-- Modelled from the spec: the token registry. -/
structure TokenSystem where
  trig : List Nat
  edges : List (Nat × Nat)
  deriving Repr, DecidableEq

/-- Modelled from the spec: `isTriggered()`. -/
def TokenSystem.isTriggered (s : TokenSystem) (t : Nat) : Bool :=
  s.trig.contains t

/-- The children directly linked under `p`. -/
def childrenOf (edges : List (Nat × Nat)) (p : Nat) : List Nat :=
  (edges.filter (fun q => q.1 == p)).map (fun q => q.2)

/-- Modelled from the spec: mark `t` and, recursively, its linked
children as triggered; the fuel (instantiated with the number of edges)
bounds the propagation depth, which suffices because each recursion step
consumes an edge. -/
def triggerAux (edges : List (Nat × Nat)) : Nat → Nat → List Nat → List Nat
  | 0, t, acc => t :: acc
  | fuel + 1, t, acc =>
      (childrenOf edges t).foldl (fun a c => triggerAux edges fuel c a) (t :: acc)

/-- Modelled from the spec: `trigger()` — idempotent, sets triggered and
propagates to all children transitively. -/
def TokenSystem.trigger (s : TokenSystem) (t : Nat) : TokenSystem :=
  { s with trig := triggerAux s.edges s.edges.length t s.trig }

/-- Modelled from the spec: `link(parent)` — registers `child` as a child
of `parent`; if the parent is already triggered, the child becomes
triggered immediately. -/
def TokenSystem.link (s : TokenSystem) (child parent : Nat) : TokenSystem :=
  let s2 : TokenSystem := { s with edges := (parent, child) :: s.edges }
  if s.isTriggered parent then s2.trigger child else s2

/-! ## The `fetch` wrappers (`src/examples/fetch.ts`) and the lead
repositories (`src/examples/leads.ts`, the `orDie` variant in
`src/unnamed/part_000`)

```
export const request = (info: RequestInfo, init?: RequestInit | undefined) =>
  Effect.tryCatchPromiseInterrupt(
    (signal) => fetch(info, { ...init, signal }),
    (error) => FetchError({ error })
  );

export const jsonBody = (input: Response) =>
  Effect.tryCatchPromise(
    () => input.json() as Promise<unknown>,
    (error) => JsonBodyError({ error })
  );
```

A promise settles with a value or rejects with an arbitrary thrown value
of type `V`; `Effect.tryCatchPromise` / `tryCatchPromiseInterrupt` run
the promise and map every rejection through the supplied error
constructor — their standard semantics, embedded here because the
library's code is outside the repository.  `LeadError` is the closed sum
of the two `Data.tagged` error cases with their `_tag` strings. -/

/-- Running an effect built with `Effect.tryCatchPromise`: the promise's
settlement with every rejection mapped through `onError`. -/
def tryCatchPromise {V A E : Type} (promise : Except V A) (onError : V → E) :
    Except E A :=
  match promise with
  | Except.ok a => Except.ok a
  | Except.error v => Except.error (onError v)

/-- Running an effect built with `Effect.tryCatchPromiseInterrupt`: the
promise receives the interruption signal, and every rejection is mapped
through `onError`. -/
def tryCatchPromiseInterrupt {V A E S : Type} (promise : S → Except V A)
    (onError : V → E) (signal : S) : Except E A :=
  match promise signal with
  | Except.ok a => Except.ok a
  | Except.error v => Except.error (onError v)

/-- The two tagged error cases of `src/examples/fetch.ts`, each carrying
the raw thrown value. -/
inductive LeadError (V : Type) where
  | FetchError (error : V)
  | JsonBodyError (error : V)
  deriving Repr, DecidableEq

/-- The `_tag` discriminant of `Data.tagged`. -/
def LeadError.tag {V : Type} : LeadError V → String
  | .FetchError _ => "FetchError"
  | .JsonBodyError _ => "JsonBodyError"

/-- `Http.request`: run the signalled `fetch` promise, wrapping any
rejection in `FetchError`. -/
def request {V R S : Type} (fetchFn : S → Except V R) (signal : S) :
    Except (LeadError V) R :=
  tryCatchPromiseInterrupt fetchFn (fun error => LeadError.FetchError error) signal

/-- `Http.jsonBody`: run the body-decoding promise, wrapping any
rejection in `JsonBodyError`. -/
def jsonBody {V J : Type} (jsonPromise : Except V J) : Except (LeadError V) J :=
  tryCatchPromise jsonPromise (fun error => LeadError.JsonBodyError error)

/-- `getLead` of `src/examples/leads.ts`:
`pipe(Http.request(...), Effect.flatMap(Http.jsonBody))`; `fetchFn` is
the fetch promise for the lead's URL and `jsonFn` the body decoding of
the obtained response. -/
def getLead {V R J S : Type} (fetchFn : S → Except V R) (jsonFn : R → Except V J)
    (signal : S) : Except (LeadError V) J :=
  match request fetchFn signal with
  | Except.ok res => jsonBody (jsonFn res)
  | Except.error e => Except.error e

/-- The outcome of running an effect: success, a typed recoverable
failure from the error channel `E`, or an unrecoverable defect `D`. -/
inductive Exit (D E A : Type) where
  | succeed (a : A)
  | fail (e : E)
  | die (defect : D)
  deriving Repr, DecidableEq

/-- Running a plain fallible effect: failures surface on the typed error
channel. -/
def toExit {E A : Type} : Except E A → Exit Empty E A
  | Except.ok a => Exit.succeed a
  | Except.error e => Exit.fail e

/-- `Effect.orDie`: every typed failure becomes an unrecoverable defect;
the resulting error channel is empty (`Empty`). -/
def orDie {E A : Type} : Except E A → Exit E Empty A
  | Except.ok a => Exit.succeed a
  | Except.error e => Exit.die e

/-- `getLead` of `src/unnamed/part_000`: the `leads.ts` pipeline followed
by `Effect.orDie`. -/
def getLeadOrDie {V R J S : Type} (fetchFn : S → Except V R) (jsonFn : R → Except V J)
    (signal : S) : Exit (LeadError V) Empty J :=
  orDie (getLead fetchFn jsonFn signal)

/-! # Theorems -/

namespace Bounded

/-! ### List helper lemmas -/

theorem enumerate_length {I : Type} (l : List I) (k : Nat) :
    (enumerate l k).length = l.length := by
  induction l generalizing k with
  | nil => rfl
  | cons x xs ih => simp [enumerate, ih]

theorem enumerate_getElem? {I : Type} (l : List I) (k j : Nat) :
    (enumerate l k)[j]? = l[j]?.map (fun x => (x, k + j)) := by
  induction l generalizing k j with
  | nil => simp [enumerate]
  | cons x xs ih =>
      cases j with
      | zero => simp [enumerate]
      | succ j =>
          simp only [enumerate, List.getElem?_cons_succ, ih]
          have h : k + (j + 1) = (k + 1) + j := by omega
          rw [h]

theorem map_snd_eraseIdx {I : Type} (l : List (I × Nat)) (k : Nat) :
    (l.eraseIdx k).map Prod.snd = (l.map Prod.snd).eraseIdx k := by
  induction l generalizing k with
  | nil => rfl
  | cons x xs ih =>
      cases k with
      | zero => rfl
      | succ k => simp [List.eraseIdx, ih]

theorem mem_eraseIdx_of_ne {α : Type} (l : List α) (k : Nat) (p q : α)
    (hq : l[k]? = some q) (hp : p ∈ l) (hne : p ≠ q) : p ∈ l.eraseIdx k := by
  induction l generalizing k with
  | nil => cases hp
  | cons a as ih =>
      cases k with
      | zero =>
          simp only [List.getElem?_cons_zero, Option.some.injEq] at hq
          subst hq
          rcases List.mem_cons.mp hp with h | h
          · exact absurd h hne
          · simpa [List.eraseIdx] using h
      | succ k =>
          simp only [List.getElem?_cons_succ] at hq
          rcases List.mem_cons.mp hp with h | h
          · simp [List.eraseIdx, h]
          · simp [List.eraseIdx, ih k hq h]

theorem nodup_not_mem_eraseIdx {α : Type} (l : List α) (k : Nat) (q : α)
    (hnd : l.Nodup) (hq : l[k]? = some q) : q ∉ l.eraseIdx k := by
  induction l generalizing k with
  | nil => simp [List.eraseIdx]
  | cons a as ih =>
      have hnd' : a ∉ as ∧ as.Nodup := by simpa using hnd
      cases k with
      | zero =>
          simp only [List.getElem?_cons_zero, Option.some.injEq] at hq
          subst hq
          simpa [List.eraseIdx] using hnd'.1
      | succ k =>
          simp only [List.getElem?_cons_succ] at hq
          have hqin : q ∈ as := List.getElem?_mem hq
          have hqa : q ≠ a := by
            intro h; exact hnd'.1 (h ▸ hqin)
          simp only [List.eraseIdx, List.mem_cons]
          rintro (h | h)
          · exact hqa h
          · exact ih k hnd'.2 hq h

section InvariantPreservation

variable {I O E : Type} {ids : List I} {op : I → Except E O}

theorem invAt_init (ids : List I) (op : I → Except E O) :
    InvAt ids op (initState (I := I) (O := O) (E := E) ids) 0 0 where
  d_le := Nat.zero_le _
  rem := by simp [initState]
  res_len := by simp [initState]
  pend := rfl
  infl_lt := by intro p hp; cases hp
  infl_src := by intro p hp; cases hp
  infl_res := by intro p hp; cases hp
  infl_nodup := List.nodup_nil
  undisp := by
    intro j _ hj
    simp [initState, List.getElem?_replicate, hj]
  done_ok := by intro j hj; omega
  done_err := by intro j hj; omega
  nofail := by intro _ j hj; omega
  ok_settled := by intro r hr; cases hr

theorem invAt_trySettle_error {s : ExecState I O E} {d f : Nat} (h : InvAt ids op s d f)
    (e : E) : InvAt ids op (trySettle s (Except.error e)) d f := by
  unfold trySettle
  cases hs : s.settled with
  | some w => exact h
  | none =>
      exact { h with
        ok_settled := by intro r hr; simp at hr }

theorem invAt_fetchRemaining {s : ExecState I O E} {d f : Nat} (h : InvAt ids op s d f) :
    ∃ d', InvAt ids op (fetchRemaining s) d' f := by
  have hlast : s.remaining.getLast? = ids[d]?.map (fun x => (x, d)) := by
    rw [h.rem, List.getLast?_reverse, List.head?_drop, enumerate_getElem?]
    simp
  cases hid : ids[d]? with
  | some a =>
      have hd_lt : d < ids.length := (List.getElem?_eq_some.mp hid).1
      have hl2 : s.remaining.getLast? = some (a, d) := by rw [hlast, hid]; rfl
      have hfr : fetchRemaining s =
          { s with
            remaining := s.remaining.dropLast
            pending := s.pending + 1
            inflight := (a, d) :: s.inflight } := by
        simp [fetchRemaining, hl2]
      have hdrop : s.remaining.dropLast = ((enumerate ids 0).drop (d + 1)).reverse := by
        rw [h.rem, List.dropLast_reverse, List.tail_drop]
      refine ⟨d + 1, ?_⟩
      rw [hfr]
      exact {
        d_le := by omega
        rem := hdrop
        res_len := h.res_len
        pend := by
          have := h.pend
          simp only [List.length_cons]
          omega
        infl_lt := by
          intro p hp
          rcases List.mem_cons.mp hp with hp | hp
          · rw [hp]; omega
          · have := h.infl_lt p hp; omega
        infl_src := by
          intro p hp
          rcases List.mem_cons.mp hp with hp | hp
          · rw [hp]; exact hid
          · exact h.infl_src p hp
        infl_res := by
          intro p hp
          rcases List.mem_cons.mp hp with hp | hp
          · rw [hp]; exact h.undisp d le_rfl hd_lt
          · exact h.infl_res p hp
        infl_nodup := by
          simp only [List.map_cons, List.nodup_cons]
          refine ⟨?_, h.infl_nodup⟩
          intro hmem
          rcases List.mem_map.mp hmem with ⟨p, hp, hpd⟩
          have := h.infl_lt p hp
          omega
        undisp := by intro j hj hjn; exact h.undisp j (by omega) hjn
        done_ok := by
          intro j hj hfree x hx r hr
          have hjd : j ≠ d := by
            intro he
            exact hfree (a, d) (List.mem_cons_self _ _) he.symm
          exact h.done_ok j (by omega)
            (fun p hp => hfree p (List.mem_cons_of_mem _ hp)) x hx r hr
        done_err := by
          intro j hj hfree x hx e he
          have hjd : j ≠ d := by
            intro heq
            exact hfree (a, d) (List.mem_cons_self _ _) heq.symm
          exact h.done_err j (by omega)
            (fun p hp => hfree p (List.mem_cons_of_mem _ hp)) x hx e he
        nofail := by
          intro hf j hj hfree x hx
          have hjd : j ≠ d := by
            intro heq
            exact hfree (a, d) (List.mem_cons_self _ _) heq.symm
          exact h.nofail hf j (by omega)
            (fun p hp => hfree p (List.mem_cons_of_mem _ hp)) x hx
        ok_settled := h.ok_settled }
  | none =>
      have hd_ge : ids.length ≤ d := List.getElem?_eq_none_iff.mp hid
      have hdn : d = ids.length := by have := h.d_le; omega
      have hl2 : s.remaining.getLast? = none := by rw [hlast, hid]; rfl
      have hfr : fetchRemaining s =
          if s.pending = 0 then trySettle s (Except.ok s.results) else s := by
        simp [fetchRemaining, hl2]
      refine ⟨d, ?_⟩
      rw [hfr]
      by_cases hp : s.pending = 0
      · simp only [hp, if_true]
        have hinfl : s.inflight = [] := by
          have := h.pend
          have hlen : s.inflight.length = 0 := by omega
          exact List.length_eq_zero.mp hlen
        have hf0 : f = 0 := by have := h.pend; omega
        unfold trySettle
        cases hs : s.settled with
        | some w => exact h
        | none =>
            exact { h with
              ok_settled := by
                intro r hr
                simp only [Option.some.injEq, Except.ok.injEq] at hr
                subst hr
                refine ⟨h.res_len, ?_⟩
                intro j x hx
                have hjn : j < ids.length := (List.getElem?_eq_some.mp hx).1
                have hfree : ∀ p ∈ s.inflight, p.2 ≠ j := by
                  intro p hp; rw [hinfl] at hp; cases hp
                obtain ⟨v, hv⟩ := h.nofail hf0 j (by omega) hfree x hx
                exact ⟨v, hv, h.done_ok j (by omega) hfree x hx v hv⟩ }
      · simp only [hp, if_false]
        exact h

theorem invAt_complete {s : ExecState I O E} {d f : Nat} (h : InvAt ids op s d f) (k : Nat) :
    ∃ d' f', InvAt ids op (complete op s k) d' f' := by
  cases hk : s.inflight[k]? with
  | none => exact ⟨d, f, by simpa [complete, hk] using h⟩
  | some t =>
      obtain ⟨id, idx⟩ := t
      have hmem : (id, idx) ∈ s.inflight := List.getElem?_mem hk
      have hklt : k < s.inflight.length := (List.getElem?_eq_some.mp hk).1
      have hidx_d : idx < d := h.infl_lt _ hmem
      have hsrc : ids[idx]? = some id := h.infl_src _ hmem
      have hres0 : s.results[idx]? = some none := h.infl_res _ hmem
      have hidx_n : idx < ids.length := (List.getElem?_eq_some.mp hsrc).1
      have hsnd : (s.inflight.map Prod.snd)[k]? = some idx := by
        rw [List.getElem?_map, hk]; rfl
      have hnidx : idx ∉ (s.inflight.eraseIdx k).map Prod.snd := by
        rw [map_snd_eraseIdx]
        exact nodup_not_mem_eraseIdx _ k idx h.infl_nodup hsnd
      have hmem' : ∀ p ∈ s.inflight.eraseIdx k, p ∈ s.inflight := fun p hp =>
        List.Sublist.mem hp (List.eraseIdx_sublist _ k)
      have hsnd' : ∀ p ∈ s.inflight.eraseIdx k, p.2 ≠ idx := by
        intro p hp hc
        exact hnidx (hc ▸ List.mem_map_of_mem Prod.snd hp)
      have hlen' : (s.inflight.eraseIdx k).length = s.inflight.length - 1 :=
        List.length_eraseIdx_of_lt hklt
      have hnodup' : ((s.inflight.eraseIdx k).map Prod.snd).Nodup := by
        rw [map_snd_eraseIdx]
        exact List.Sublist.nodup (List.eraseIdx_sublist _ k) h.infl_nodup
      have hfree_old : ∀ j, j ≠ idx → (∀ p ∈ s.inflight.eraseIdx k, p.2 ≠ j) →
          ∀ p ∈ s.inflight, p.2 ≠ j := by
        intro j hj hfree p hp hc
        have hpq : p ≠ (id, idx) := by
          intro he
          rw [he] at hc
          exact hj hc.symm
        exact hfree p (mem_eraseIdx_of_ne _ k p (id, idx) hk hp hpq) hc
      cases hop : op id with
      | ok res =>
          have hc2 : complete op s k = fetchRemaining
              { s with
                inflight := s.inflight.eraseIdx k
                results := s.results.set idx (some res)
                pending := s.pending - 1 } := by
            simp [complete, hk, hop]
          have h2 : InvAt ids op
              { s with
                inflight := s.inflight.eraseIdx k
                results := s.results.set idx (some res)
                pending := s.pending - 1 } d f := {
            d_le := h.d_le
            rem := h.rem
            res_len := by simp [List.length_set, h.res_len]
            pend := by
              show s.pending - 1 = (s.inflight.eraseIdx k).length + f
              rw [hlen']
              have := h.pend
              omega
            infl_lt := fun p hp => h.infl_lt p (hmem' p hp)
            infl_src := fun p hp => h.infl_src p (hmem' p hp)
            infl_res := by
              intro p hp
              have hne : idx ≠ p.2 := Ne.symm (hsnd' p hp)
              simp only [List.getElem?_set_ne hne]
              exact h.infl_res p (hmem' p hp)
            infl_nodup := hnodup'
            undisp := by
              intro j hj hjn
              have hne : idx ≠ j := by omega
              simp only [List.getElem?_set_ne hne]
              exact h.undisp j hj hjn
            done_ok := by
              intro j hj hfree x hx r hr
              by_cases hji : j = idx
              · subst hji
                rw [hx] at hsrc
                have hxid : x = id := Option.some.inj hsrc
                rw [hxid, hop] at hr
                injection hr with hres
                subst hres
                have hlt : j < s.results.length := by rw [h.res_len]; exact hidx_n
                rw [List.getElem?_set_self hlt]
              · have hne : idx ≠ j := Ne.symm hji
                simp only [List.getElem?_set_ne hne]
                exact h.done_ok j hj (hfree_old j hji hfree) x hx r hr
            done_err := by
              intro j hj hfree x hx e he
              by_cases hji : j = idx
              · subst hji
                rw [hx] at hsrc
                have hxid : x = id := Option.some.inj hsrc
                rw [hxid, hop] at he
                cases he
              · have hne : idx ≠ j := Ne.symm hji
                simp only [List.getElem?_set_ne hne]
                exact h.done_err j hj (hfree_old j hji hfree) x hx e he
            nofail := by
              intro hf j hj hfree x hx
              by_cases hji : j = idx
              · subst hji
                rw [hx] at hsrc
                have hxid : x = id := Option.some.inj hsrc
                exact ⟨res, hxid ▸ hop⟩
              · exact h.nofail hf j hj (hfree_old j hji hfree) x hx
            ok_settled := h.ok_settled }
          obtain ⟨d', h3⟩ := invAt_fetchRemaining h2
          exact ⟨d', f, by rw [hc2]; exact h3⟩
      | error e =>
          have hc2 : complete op s k =
              trySettle { s with inflight := s.inflight.eraseIdx k } (Except.error e) := by
            simp [complete, hk, hop]
          have h1 : InvAt ids op { s with inflight := s.inflight.eraseIdx k } d (f + 1) := {
            d_le := h.d_le
            rem := h.rem
            res_len := h.res_len
            pend := by
              show s.pending = (s.inflight.eraseIdx k).length + (f + 1)
              rw [hlen']
              have := h.pend
              omega
            infl_lt := fun p hp => h.infl_lt p (hmem' p hp)
            infl_src := fun p hp => h.infl_src p (hmem' p hp)
            infl_res := fun p hp => h.infl_res p (hmem' p hp)
            infl_nodup := hnodup'
            undisp := h.undisp
            done_ok := by
              intro j hj hfree x hx r hr
              by_cases hji : j = idx
              · subst hji
                rw [hx] at hsrc
                have hxid : x = id := Option.some.inj hsrc
                rw [hxid, hop] at hr
                cases hr
              · exact h.done_ok j hj (hfree_old j hji hfree) x hx r hr
            done_err := by
              intro j hj hfree x hx e' he'
              by_cases hji : j = idx
              · subst hji
                exact hres0
              · exact h.done_err j hj (hfree_old j hji hfree) x hx e' he'
            nofail := by
              intro hf
              exact absurd hf (by omega)
            ok_settled := h.ok_settled }
          exact ⟨d, f + 1, by rw [hc2]; exact invAt_trySettle_error h1 e⟩

theorem inv_fetchRemaining {s : ExecState I O E} (h : Inv ids op s) :
    Inv ids op (fetchRemaining s) := by
  obtain ⟨d, f, h⟩ := h
  obtain ⟨d', h'⟩ := invAt_fetchRemaining h
  exact ⟨d', f, h'⟩

theorem inv_complete {s : ExecState I O E} (h : Inv ids op s) (k : Nat) :
    Inv ids op (complete op s k) := by
  obtain ⟨d, f, h⟩ := h
  obtain ⟨d', f', h'⟩ := invAt_complete h k
  exact ⟨d', f', h'⟩

theorem inv_startLoop {s : ExecState I O E} (n : Nat) (h : Inv ids op s) :
    Inv ids op (startLoop n s) := by
  induction n generalizing s with
  | zero => exact h
  | succ n ih => exact ih (inv_fetchRemaining h)

theorem inv_foldl {s : ExecState I O E} (cs : List Nat) (h : Inv ids op s) :
    Inv ids op (cs.foldl (complete op) s) := by
  induction cs generalizing s with
  | nil => exact h
  | cons c cs ih => exact ih (inv_complete h c)

theorem inv_run (ids : List I) (limit : Nat) (op : I → Except E O) (cs : List Nat) :
    Inv ids op (run ids limit op cs) :=
  inv_foldl cs (inv_startLoop limit ⟨0, 0, invAt_init ids op⟩)

/-! ### Pending counter bound -/

theorem pending_trySettle (s : ExecState I O E) (v : Except E (List (Option O))) :
    (trySettle s v).pending = s.pending := by
  unfold trySettle
  cases s.settled <;> rfl

theorem pending_fetchRemaining_le (s : ExecState I O E) :
    (fetchRemaining s).pending ≤ s.pending + 1 := by
  unfold fetchRemaining
  cases s.remaining.getLast? with
  | some t => exact le_rfl
  | none =>
      by_cases hp : s.pending = 0
      · simp only [hp, if_true]
        rw [pending_trySettle]
        omega
      · simp only [hp, if_false]
        omega

theorem pending_startLoop_le (n : Nat) (s : ExecState I O E) :
    (startLoop n s).pending ≤ s.pending + n := by
  induction n generalizing s with
  | zero => exact le_rfl
  | succ n ih =>
      calc (startLoop n (fetchRemaining s)).pending
          ≤ (fetchRemaining s).pending + n := ih _
        _ ≤ (s.pending + 1) + n := by
            have := pending_fetchRemaining_le s
            omega
        _ = s.pending + (n + 1) := by omega

theorem pending_complete_le {s : ExecState I O E} (h : Inv ids op s) (k : Nat) :
    (complete op s k).pending ≤ s.pending := by
  obtain ⟨d, f, h⟩ := h
  cases hk : s.inflight[k]? with
  | none => simp [complete, hk]
  | some t =>
      obtain ⟨id, idx⟩ := t
      have hklt : k < s.inflight.length := (List.getElem?_eq_some.mp hk).1
      have hpend : s.pending = s.inflight.length + f := h.pend
      cases hop : op id with
      | ok res =>
          have hc2 : complete op s k = fetchRemaining
              { s with
                inflight := s.inflight.eraseIdx k
                results := s.results.set idx (some res)
                pending := s.pending - 1 } := by
            simp [complete, hk, hop]
          rw [hc2]
          have := pending_fetchRemaining_le
            { s with
              inflight := s.inflight.eraseIdx k
              results := s.results.set idx (some res)
              pending := s.pending - 1 }
          simp only at this
          omega
      | error e =>
          have hc2 : complete op s k =
              trySettle { s with inflight := s.inflight.eraseIdx k } (Except.error e) := by
            simp [complete, hk, hop]
          rw [hc2, pending_trySettle]

theorem pending_foldl_le {s : ExecState I O E} (cs : List Nat) (h : Inv ids op s) :
    (cs.foldl (complete op) s).pending ≤ s.pending := by
  induction cs generalizing s with
  | nil => exact le_rfl
  | cons c cs ih =>
      calc (cs.foldl (complete op) (complete op s c)).pending
          ≤ (complete op s c).pending := ih (inv_complete h c)
        _ ≤ s.pending := pending_complete_le h c

theorem pending_run_le (ids : List I) (limit : Nat) (op : I → Except E O) (cs : List Nat) :
    (run ids limit op cs).pending ≤ limit := by
  have h1 : (startLoop limit (initState (I := I) (O := O) (E := E) ids)).pending ≤ limit := by
    have := pending_startLoop_le limit (initState (I := I) (O := O) (E := E) ids)
    simpa [initState] using this
  have h2 := pending_foldl_le cs (inv_startLoop limit ⟨0, 0, invAt_init ids op⟩)
  exact le_trans h2 h1

end InvariantPreservation

end Bounded

namespace FailFast

theorem startInv2_init (ids : List I) : StartInv2 (initState (I := I) (O := O) (E := E) ids) := by
  constructor
  · exact {
      abort_iff := by simp [initState]
      ok_inflight := by intro r hr; cases hr
      len_le := le_rfl }
  · left; rfl

theorem startInv2_fetchRemaining {s : ExecState I O E} (h : StartInv2 s) :
    StartInv2 (fetchRemaining s) := by
  obtain ⟨h2, hcase⟩ := h
  unfold fetchRemaining
  cases hl : s.remaining.getLast? with
  | some t =>
      have hne : s.remaining ≠ [] := by
        intro he; rw [he] at hl; cases hl
      have hnone : s.settled = none := by
        rcases hcase with hc | hc
        · exact hc
        · exact absurd hc hne
      refine ⟨?_, Or.inl hnone⟩
      exact {
        abort_iff := by
          simpa using h2.abort_iff
        ok_inflight := by
          intro r hr
          simp only [hnone] at hr
          cases hr
        len_le := by
          simp only [List.length_cons]
          have := h2.len_le
          omega }
  | none =>
      by_cases hp : s.pending = 0
      · simp only [hp, if_true]
        have hinfl : s.inflight = [] := by
          have := h2.len_le
          rw [hp] at this
          exact List.length_eq_zero.mp (by omega)
        have hrem : s.remaining = [] := by
          cases hr : s.remaining with
          | nil => rfl
          | cons a l => rw [hr] at hl; simp [List.getLast?_concat] at hl
        unfold trySettle
        cases hs : s.settled with
        | some w =>
            exact ⟨h2, Or.inr hrem⟩
        | none =>
            have hab : s.aborted = false := by
              cases hb : s.aborted
              · rfl
              · obtain ⟨e, he⟩ := h2.abort_iff.mp hb
                rw [hs] at he
                cases he
            refine ⟨?_, Or.inr hrem⟩
            exact {
              abort_iff := by
                simp only [hab]
                constructor
                · intro hc; cases hc
                · rintro ⟨e, he⟩
                  simp only [Option.some.injEq] at he
                  cases he
              ok_inflight := fun r _ => hinfl
              len_le := h2.len_le }
      · simp only [hp, if_false]
        exact ⟨h2, hcase⟩

theorem inv2_complete {I O E : Type} (op : I → Except E O) (abortErr : E)
    {s : ExecState I O E} (h : Inv2 s) (k : Nat) : Inv2 (complete op abortErr s k) := by
  cases hk : s.inflight[k]? with
  | none => simpa [complete, hk] using h
  | some t =>
      obtain ⟨id, idx⟩ := t
      have hklt : k < s.inflight.length := (List.getElem?_eq_some.mp hk).1
      have hlen' : (s.inflight.eraseIdx k).length = s.inflight.length - 1 :=
        List.length_eraseIdx_of_lt hklt
      have hne : s.inflight ≠ [] := by
        intro he
        rw [he] at hklt
        cases hklt
      cases hab : s.aborted with
      | true =>
          obtain ⟨e0, he0⟩ := h.abort_iff.mp hab
          have hc2 : complete op abortErr s k =
              trySettle { s with inflight := s.inflight.eraseIdx k, aborted := true }
                (Except.error abortErr) := by
            simp [complete, hk, hab]
          rw [hc2]
          unfold trySettle
          simp only [he0]
          exact {
            abort_iff := by simp
            ok_inflight := by
              intro r hr
              simp at hr
            len_le := by
              show (s.inflight.eraseIdx k).length ≤ s.pending
              have := h.len_le
              rw [hlen']
              omega }
      | false =>
          have hsettled : s.settled = none ∨ ∃ r, s.settled = some (Except.ok r) := by
            cases hs : s.settled with
            | none => exact Or.inl rfl
            | some w =>
                cases w with
                | ok r => exact Or.inr ⟨r, rfl⟩
                | error e =>
                    have : s.aborted = true := h.abort_iff.mpr ⟨e, hs⟩
                    rw [hab] at this
                    cases this
          have hnone : s.settled = none := by
            rcases hsettled with hs | ⟨r, hs⟩
            · exact hs
            · exact absurd (h.ok_inflight r hs) hne
          cases hop : op id with
          | ok res =>
              have hc2 : complete op abortErr s k = fetchRemaining
                  { s with
                    inflight := s.inflight.eraseIdx k
                    results := s.results.set idx (some res)
                    pending := s.pending - 1 } := by
                simp [complete, hk, hab, hop]
              rw [hc2]
              have h2 : StartInv2
                  { s with
                    inflight := s.inflight.eraseIdx k
                    results := s.results.set idx (some res)
                    pending := s.pending - 1 } := by
                refine ⟨?_, Or.inl hnone⟩
                exact {
                  abort_iff := by
                    simp only [hab, hnone]
                    constructor
                    · intro hc; cases hc
                    · rintro ⟨e, he⟩; cases he
                  ok_inflight := by
                    intro r hr
                    simp only [hnone] at hr
                    cases hr
                  len_le := by
                    show (s.inflight.eraseIdx k).length ≤ s.pending - 1
                    have := h.len_le
                    rw [hlen']
                    omega }
              exact (startInv2_fetchRemaining h2).1
          | error e =>
              have hc2 : complete op abortErr s k =
                  trySettle { s with inflight := s.inflight.eraseIdx k, aborted := true }
                    (Except.error e) := by
                simp [complete, hk, hab, hop]
              rw [hc2]
              unfold trySettle
              simp only [hnone]
              exact {
                abort_iff := by simp
                ok_inflight := by intro r hr; simp at hr
                len_le := by
                  show (s.inflight.eraseIdx k).length ≤ s.pending
                  have := h.len_le
                  rw [hlen']
                  omega }

/-- Once the promise is rejected, a further settlement step changes
neither the settlement, nor the abort flag, nor the queue of
never-dispatched tasks. -/
theorem rejected_stable_complete {I O E : Type} (op : I → Except E O) (abortErr : E)
    {s : ExecState I O E} {e : E} (h : Inv2 s)
    (hs : s.settled = some (Except.error e)) (k : Nat) :
    (complete op abortErr s k).settled = some (Except.error e) ∧
      (complete op abortErr s k).remaining = s.remaining ∧
      (complete op abortErr s k).aborted = true ∧
      Inv2 (complete op abortErr s k) := by
  have hab : s.aborted = true := h.abort_iff.mpr ⟨e, hs⟩
  have hinv := inv2_complete op abortErr h k
  cases hk : s.inflight[k]? with
  | none =>
      refine ⟨?_, ?_, ?_, hinv⟩ <;> simp [complete, hk, hs, hab]
  | some t =>
      obtain ⟨id, idx⟩ := t
      have hc2 : complete op abortErr s k =
          trySettle { s with inflight := s.inflight.eraseIdx k, aborted := true }
            (Except.error abortErr) := by
        simp [complete, hk, hab]
      rw [hc2] at hinv ⊢
      unfold trySettle
      simp only [hs]
      exact ⟨trivial, trivial, trivial, by unfold trySettle at hinv; simpa [hs] using hinv⟩

theorem startInv2_startLoop {I O E : Type} {s : ExecState I O E} (n : Nat)
    (h : StartInv2 s) : StartInv2 (startLoop n s) := by
  induction n generalizing s with
  | zero => exact h
  | succ n ih => exact ih (startInv2_fetchRemaining h)

theorem inv2_foldl {I O E : Type} {op : I → Except E O} {abortErr : E}
    {s : ExecState I O E} (cs : List Nat) (h : Inv2 s) :
    Inv2 (cs.foldl (complete op abortErr) s) := by
  induction cs generalizing s with
  | nil => exact h
  | cons c cs ih => exact ih (inv2_complete op abortErr h c)

theorem inv2_run {I O E : Type} (ids : List I) (limit : Nat) (op : I → Except E O)
    (abortErr : E) (cs : List Nat) : Inv2 (run ids limit op abortErr cs) :=
  inv2_foldl cs (startInv2_startLoop limit (startInv2_init ids)).1

theorem rejected_stable_foldl {I O E : Type} (op : I → Except E O) (abortErr : E)
    {s : ExecState I O E} {e : E} (cs : List Nat) (h : Inv2 s)
    (hs : s.settled = some (Except.error e)) :
    (cs.foldl (complete op abortErr) s).settled = some (Except.error e) ∧
      (cs.foldl (complete op abortErr) s).remaining = s.remaining := by
  induction cs generalizing s with
  | nil => exact ⟨hs, rfl⟩
  | cons c cs ih =>
      obtain ⟨h1, h2, _, h4⟩ := rejected_stable_complete op abortErr h hs c
      obtain ⟨h5, h6⟩ := ih h4 h1
      exact ⟨h5, h6.trans h2⟩

end FailFast

/-- Any error `callWithRetry` ends with was produced by some invocation of
`fn` — the loop never substitutes an error of its own. -/
theorem callWithRetry_error_mem {A E : Type} (fn : Nat → Except E A) (opts : RetryOptions)
    (depth : Nat) (e : E) (h : callWithRetry fn opts depth = Except.error e) :
    ∃ k, fn k = Except.error e := by
  rw [callWithRetry] at h
  split at h
  next a heq => cases h
  next e' heq =>
    split at h
    next hd =>
      cases h
      exact ⟨depth, heq⟩
    next hd => exact callWithRetry_error_mem fn opts (depth + 1) e h
termination_by opts.limit + 1 - depth
decreasing_by simp_wf; omega

/-- When every attempt fails, the loop returns the error of the last
attempt (`depth = limit + 1`, the first one with `depth > limit`). -/
theorem callWithRetry_all_fail {A E : Type} (fn : Nat → Except E A) (opts : RetryOptions)
    (es : Nat → E) (hfail : ∀ k, fn k = Except.error (es k)) (depth : Nat)
    (hd : depth ≤ opts.limit + 1) :
    callWithRetry fn opts depth = Except.error (es (opts.limit + 1)) := by
  rw [callWithRetry, hfail depth]
  show (if h : depth > opts.limit then Except.error (es depth)
      else callWithRetry fn opts (depth + 1)) = Except.error (es (opts.limit + 1))
  by_cases hlt : depth > opts.limit
  · rw [dif_pos hlt]
    have h : depth = opts.limit + 1 := by omega
    rw [h]
  · rw [dif_neg hlt]
    exact callWithRetry_all_fail fn opts es hfail (depth + 1) (by omega)
termination_by opts.limit + 1 - depth
decreasing_by simp_wf; omega

theorem subset_triggerAux (edges : List (Nat × Nat)) :
    ∀ (fuel t : Nat) (acc : List Nat) (a : Nat), a ∈ acc →
      a ∈ triggerAux edges fuel t acc := by
  intro fuel
  induction fuel with
  | zero =>
      intro t acc a h
      exact List.mem_cons_of_mem _ h
  | succ fuel ih =>
      intro t acc a h
      show a ∈ (childrenOf edges t).foldl (fun b c => triggerAux edges fuel c b) (t :: acc)
      have haux : ∀ (l : List Nat) (acc2 : List Nat), a ∈ acc2 →
          a ∈ l.foldl (fun b c => triggerAux edges fuel c b) acc2 := by
        intro l
        induction l with
        | nil => intro acc2 h2; exact h2
        | cons c cl ihl =>
            intro acc2 h2
            exact ihl _ (ih c acc2 a h2)
      exact haux _ _ (List.mem_cons_of_mem _ h)

theorem mem_foldl_triggerAux (edges : List (Nat × Nat)) (fuel : Nat) (l : List Nat)
    (acc : List Nat) (a : Nat) (h : a ∈ acc) :
    a ∈ l.foldl (fun b c => triggerAux edges fuel c b) acc := by
  induction l generalizing acc with
  | nil => exact h
  | cons c cl ih => exact ih _ (subset_triggerAux edges fuel c acc a h)

theorem mem_triggerAux_self (edges : List (Nat × Nat)) (fuel t : Nat) (acc : List Nat) :
    t ∈ triggerAux edges fuel t acc := by
  cases fuel with
  | zero => exact List.mem_cons_self _ _
  | succ fuel =>
      exact mem_foldl_triggerAux edges fuel _ (t :: acc) t (List.mem_cons_self _ _)

theorem child_mem_triggerAux (edges : List (Nat × Nat)) (fuel t c : Nat)
    (acc : List Nat) (hc : c ∈ childrenOf edges t) (hf : 1 ≤ fuel) :
    c ∈ triggerAux edges fuel t acc := by
  cases fuel with
  | zero => omega
  | succ fuel =>
      show c ∈ (childrenOf edges t).foldl (fun b d => triggerAux edges fuel d b) (t :: acc)
      have hgen : ∀ (l : List Nat) (acc2 : List Nat), c ∈ l →
          c ∈ l.foldl (fun b d => triggerAux edges fuel d b) acc2 := by
        intro l
        induction l with
        | nil => intro acc2 h; cases h
        | cons a al ih =>
            intro acc2 h
            rcases List.mem_cons.mp h with h | h
            · subst h
              exact mem_foldl_triggerAux edges fuel al _ c
                (mem_triggerAux_self edges fuel c acc2)
            · exact ih _ h
      exact hgen _ _ hc

/-! ## Claims C1 and C2 -/

/-- C1: for every input sequence and every interleaving of completion times
(every choice list `cs`, prefixes included), when the bounded executor's
promise resolves successfully with `r`, the `i`-th element of `r` is the
result of the operation applied to the `i`-th input — result placement is
by original index, independent of completion order. -/
theorem bounded_executor_result_ordering {I O E : Type} (ids : List I) (limit : Nat)
    (op : I → Except E O) (cs : List Nat) (r : List (Option O))
    (h : (Bounded.run ids limit op cs).settled = some (Except.ok r)) :
    r.length = ids.length ∧
      ∀ (i : Nat) (x : I), ids[i]? = some x →
        ∃ v, op x = Except.ok v ∧ r[i]? = some (some v) := by
  obtain ⟨d, f, hI⟩ := Bounded.inv_run ids limit op cs
  exact hI.ok_settled r h

/-- Witness for C1 at the concrete run `getLeads [10, 20, 30]` with
`limit = 2` and the interleaving `[1, 0, 0]` (the first dispatched
operation finishes last). -/
theorem bounded_executor_result_ordering_witness :
    (Bounded.run [10, 20, 30] 2 (fun i => (Except.ok (i + 1) : Except Unit Nat))
        [1, 0, 0]).settled = some (Except.ok [some 11, some 21, some 31]) ∧
      ([some 11, some 21, some 31] : List (Option Nat)).length =
        ([10, 20, 30] : List Nat).length ∧
      ∀ (i : Nat) (x : Nat), ([10, 20, 30] : List Nat)[i]? = some x →
        ∃ v, (Except.ok (x + 1) : Except Unit Nat) = Except.ok v ∧
          ([some 11, some 21, some 31] : List (Option Nat))[i]? = some (some v) :=
  ⟨rfl, bounded_executor_result_ordering [10, 20, 30] 2
    (fun i => (Except.ok (i + 1) : Except Unit Nat)) [1, 0, 0]
    [some 11, some 21, some 31] rfl⟩

/-- C2: at every instant of every batch run the number of operations
simultaneously in flight (dispatched but not yet settled) is at most
`limit`.  Every reachable instant of a run is `Bounded.run ids limit op cs`
for the choice list `cs` of settlements that happened before it, so
quantifying over all `cs` states the invariant at every step. -/
theorem bounded_executor_concurrency_bound {I O E : Type} (ids : List I) (limit : Nat)
    (op : I → Except E O) (cs : List Nat) :
    (Bounded.run ids limit op cs).inflight.length ≤ limit := by
  obtain ⟨d, f, hI⟩ := Bounded.inv_run ids limit op cs
  have h1 := hI.pend
  have h2 := Bounded.pending_run_le ids limit op cs
  omega

/-! ## Claim C3 -/

/-- C3: when a run of the cancellable `getLeads` has rejected with the
first terminal error `e` (after the choices `cs`), the shared
`AbortController` has been aborted, and under every continuation `cs'` of
the interleaving no not-yet-started pending task is ever dispatched
(`remaining` never shrinks again) and the batch stays resolved with `e` —
results of operations that were in flight are discarded even if they
would have succeeded. -/
theorem failfast_first_error_cancels {I O E : Type} (ids : List I) (limit : Nat)
    (op : I → Except E O) (abortErr : E) (cs cs' : List Nat) (e : E)
    (h : (FailFast.run ids limit op abortErr cs).settled = some (Except.error e)) :
    (FailFast.run ids limit op abortErr cs).aborted = true ∧
      (FailFast.run ids limit op abortErr (cs ++ cs')).settled =
        some (Except.error e) ∧
      (FailFast.run ids limit op abortErr (cs ++ cs')).remaining =
        (FailFast.run ids limit op abortErr cs).remaining := by
  have hinv := FailFast.inv2_run ids limit op abortErr cs
  have hab : (FailFast.run ids limit op abortErr cs).aborted = true :=
    hinv.abort_iff.mpr ⟨e, h⟩
  have happ : FailFast.run ids limit op abortErr (cs ++ cs') =
      cs'.foldl (FailFast.complete op abortErr) (FailFast.run ids limit op abortErr cs) := by
    unfold FailFast.run
    rw [List.foldl_append]
  obtain ⟨h1, h2⟩ := FailFast.rejected_stable_foldl op abortErr cs' hinv h
  exact ⟨hab, happ ▸ h1, happ ▸ h2⟩

/-- Witness for C3: with `limit = 2` task `2` rejects first while task `1`
(which would have succeeded) is still in flight; the controller aborts,
task `3` is never dispatched, and the batch stays rejected with `99`. -/
theorem failfast_first_error_cancels_witness :
    (FailFast.run [1, 2, 3] 2
        (fun i => if i = 2 then Except.error 99 else Except.ok i) 77 [0]).settled =
      some (Except.error 99) ∧
    (FailFast.run [1, 2, 3] 2
        (fun i => if i = 2 then Except.error 99 else Except.ok i) 77 [0]).aborted = true ∧
      (FailFast.run [1, 2, 3] 2
          (fun i => if i = 2 then Except.error 99 else Except.ok i) 77
          ([0] ++ [0, 0])).settled = some (Except.error 99) ∧
      (FailFast.run [1, 2, 3] 2
          (fun i => if i = 2 then Except.error 99 else Except.ok i) 77
          ([0] ++ [0, 0])).remaining =
        (FailFast.run [1, 2, 3] 2
            (fun i => if i = 2 then Except.error 99 else Except.ok i) 77 [0]).remaining :=
  ⟨rfl, failfast_first_error_cancels [1, 2, 3] 2
    (fun i => if i = 2 then Except.error 99 else Except.ok i) 77 [0] [0, 0] 99 rfl⟩

/-! ## Claim C4 -/

/-- C4: for every retried operation and every sequence of failures that
exhausts the retry budget, `callWithRetry` propagates the last operation
error itself unchanged as the terminal error: any terminal error is one
thrown by an invocation of `fn`, and under total failure it is exactly the
error of the final attempt — never a synthetic "retries exhausted" or
timeout error. -/
theorem callWithRetry_propagates_original_error {A E : Type} (opts : RetryOptions) :
    (∀ (fn : Nat → Except E A) (e : E) (depth : Nat),
        callWithRetry fn opts depth = Except.error e → ∃ k, fn k = Except.error e) ∧
      ∀ (fn : Nat → Except E A) (es : Nat → E), (∀ k, fn k = Except.error (es k)) →
        callWithRetry fn opts 0 = Except.error (es (opts.limit + 1)) :=
  ⟨fun fn e depth h => callWithRetry_error_mem fn opts depth e h,
   fun fn es hfail => callWithRetry_all_fail fn opts es hfail 0 (by omega)⟩

/-- Witness for C4 with the slide's default options (`limit = 10`): an
operation failing with its attempt number at every attempt ends with error
`11` — the error of attempt `11`, re-surfaced unchanged. -/
theorem callWithRetry_propagates_original_error_witness :
    callWithRetry (fun k => (Except.error k : Except Nat Nat)) {} 0 = Except.error 11 ∧
      ∃ k, (fun k => (Except.error k : Except Nat Nat)) k = Except.error 11 := by
  have h2 := (callWithRetry_propagates_original_error (A := Nat) (E := Nat) {}).2
    (fun k => Except.error k) (fun k => k) (fun k => rfl)
  have h1 := (callWithRetry_propagates_original_error (A := Nat) (E := Nat) {}).1
    (fun k => Except.error k) 11 0 h2
  exact ⟨h2, h1⟩

/-! ## Claims C5, C6 and C7 -/

/-- C5: at every step of `either(s1, s2)`, with both members run against
independent sub-states, the decision is Halt iff both members halt;
otherwise it is Continue with delay the minimum of the delays of the
members that continued — a halted member contributes no delay and does
not veto the other. -/
theorem either_halts_iff_min_delay {X : Type} (s1 s2 : Schedule X) (x : X)
    (st1 st2 : ScheduleState) :
    ((Schedule.either s1 s2).decide x (.both st1 st2) = .halt ↔
        s1.decide x st1 = .halt ∧ s2.decide x st2 = .halt) ∧
      (∀ d1 n1 d2 n2, s1.decide x st1 = .cont d1 n1 → s2.decide x st2 = .cont d2 n2 →
        (Schedule.either s1 s2).decide x (.both st1 st2) =
          .cont (min d1 d2) (.both n1 n2)) ∧
      (∀ d1 n1, s1.decide x st1 = .cont d1 n1 → s2.decide x st2 = .halt →
        (Schedule.either s1 s2).decide x (.both st1 st2) = .cont d1 (.both n1 st2)) ∧
      (∀ d2 n2, s1.decide x st1 = .halt → s2.decide x st2 = .cont d2 n2 →
        (Schedule.either s1 s2).decide x (.both st1 st2) = .cont d2 (.both st1 n2)) := by
  refine ⟨?_, ?_, ?_, ?_⟩
  · cases h1 : s1.decide x st1 <;> cases h2 : s2.decide x st2 <;>
      simp [Schedule.decide, h1, h2]
  · intro d1 n1 d2 n2 h1 h2
    simp [Schedule.decide, h1, h2]
  · intro d1 n1 h1 h2
    simp [Schedule.decide, h1, h2]
  · intro d2 n2 h1 h2
    simp [Schedule.decide, h1, h2]

/-- Witness for C5 on `either(exponential(10ms, 2), spaced(1s))` at their
initial states: both continue, so the combination continues with the
minimum delay `10`. -/
theorem either_halts_iff_min_delay_witness :
    (Schedule.either (Schedule.exponential 10 2) (Schedule.spaced 1000)).decide ()
        (ScheduleState.both (ScheduleState.exp 0) ScheduleState.unit) =
      Decision.cont (min 10 1000) (ScheduleState.both (ScheduleState.exp 1)
        ScheduleState.unit) :=
  (either_halts_iff_min_delay (Schedule.exponential 10 2) (Schedule.spaced 1000) ()
      (ScheduleState.exp 0) ScheduleState.unit).2.1 10 (ScheduleState.exp 1) 1000
    ScheduleState.unit rfl rfl

/-- C6: `exponential(base, factor)` at recurrence count `n` always
decides Continue with delay `base * factor ^ n` and next state `n + 1` —
never Halt. -/
theorem exponential_always_continues {X : Type} (base factor : Nat) (x : X) (n : Nat) :
    (Schedule.exponential (X := X) base factor).decide x (.exp n) =
      .cont (base * factor ^ n) (.exp (n + 1)) := rfl

/-- C7: `whileInput(schedule, predicate)` on an input rejected by the
predicate halts whatever the inner schedule and state are; consequently,
under the predicate `e.kind != Fatal`, an operation failing first with a
`transient` and then with a `fatal` error gets no third attempt (exactly
two invocations) and the terminal error is the fatal one — provided the
inner schedule was willing to continue after the first failure. -/
theorem whileInput_false_halts {X : Type} :
    (∀ (inner : Schedule X) (pred : X → Bool) (x : X) (st : ScheduleState),
        pred x = false →
          (Schedule.whileInput inner pred).decide x (.wrap st) = .halt) ∧
      ∀ (rs : Schedule ErrKind) (st : ScheduleState) (d : Nat) (st' : ScheduleState)
          (fuel : Nat), rs.decide ErrKind.transient st = .cont d st' →
        retryWithSchedule
            (fun n => if n = 0 then Except.error ErrKind.transient
              else (Except.error ErrKind.fatal : Except ErrKind Unit))
            (Schedule.whileInput rs (fun e => !(e == ErrKind.fatal)))
            (fuel + 2) 0 (.wrap st) =
          some (Except.error ErrKind.fatal, 2) := by
  constructor
  · intro inner pred x st hp
    simp [Schedule.decide, hp]
  · intro rs st d st' fuel hcont
    simp [retryWithSchedule, Schedule.decide, hcont]

/-- Witness for C7 with `spaced(5ms)` as the inner schedule: the run
stops after the second attempt with the fatal error. -/
theorem whileInput_false_halts_witness :
    (Schedule.whileInput (Schedule.spaced 5) (fun e => !(e == ErrKind.fatal))).decide
        ErrKind.fatal (.wrap ScheduleState.unit) = Decision.halt ∧
      retryWithSchedule
          (fun n => if n = 0 then Except.error ErrKind.transient
            else (Except.error ErrKind.fatal : Except ErrKind Unit))
          (Schedule.whileInput (Schedule.spaced 5) (fun e => !(e == ErrKind.fatal)))
          2 0 (.wrap ScheduleState.unit) =
        some (Except.error ErrKind.fatal, 2) :=
  ⟨(whileInput_false_halts (X := ErrKind)).1 (Schedule.spaced 5)
      (fun e => !(e == ErrKind.fatal)) ErrKind.fatal ScheduleState.unit rfl,
    (whileInput_false_halts (X := ErrKind)).2 (Schedule.spaced 5) ScheduleState.unit 5
      ScheduleState.unit 0 rfl⟩

/-! ## Claim C8 -/

/-- C8: linking a token `c` under an already-triggered parent `p`
triggers `c` immediately, and in general triggering `p` triggers every
`c` linked under it. -/
theorem token_link_triggered_propagates (s : TokenSystem) (c p : Nat) :
    (s.isTriggered p = true → (s.link c p).isTriggered c = true) ∧
      ((s.link c p).trigger p).isTriggered c = true := by
  constructor
  · intro hp
    unfold TokenSystem.link
    rw [TokenSystem.isTriggered] at hp
    simp only [TokenSystem.isTriggered, hp, if_true]
    unfold TokenSystem.trigger
    exact List.elem_eq_true_of_mem (mem_triggerAux_self _ _ c s.trig)
  · have hedge : ∀ s2 : TokenSystem, s2 = s.link c p →
        (s2.trigger p).isTriggered c = true := by
      intro s2 hs2
      have hedges : s2.edges = (p, c) :: s.edges := by
        rw [hs2]
        unfold TokenSystem.link
        by_cases hp : s.isTriggered p
        · simp only [hp, if_true]
          rfl
        · rw [if_neg hp]
      unfold TokenSystem.trigger TokenSystem.isTriggered
      have hc : c ∈ childrenOf s2.edges p := by
        rw [hedges]
        simp [childrenOf]
      have hlen : 1 ≤ s2.edges.length := by
        rw [hedges]
        simp
      exact List.elem_eq_true_of_mem
        (child_mem_triggerAux s2.edges s2.edges.length p c s2.trig hc hlen)
    exact hedge _ rfl

/-- Witness for C8: token `0` is already triggered; linking token `1`
under it triggers token `1` at once. -/
theorem token_link_triggered_propagates_witness :
    (TokenSystem.isTriggered { trig := [0], edges := [] } 0 = true) ∧
      ((TokenSystem.link { trig := [0], edges := [] } 1 0).isTriggered 1 = true) ∧
      (((TokenSystem.link { trig := [0], edges := [] } 1 0).trigger 0).isTriggered 1
        = true) :=
  ⟨rfl,
    (token_link_triggered_propagates { trig := [0], edges := [] } 1 0).1 rfl,
    (token_link_triggered_propagates { trig := [0], edges := [] } 1 0).2⟩

/-! ## Claims C9 and C10 -/

/-- C9: whenever the underlying fetch promise rejects with a value `err`,
`Http.request` fails with exactly `FetchError err` (tag `"FetchError"`),
and every rejection inside `jsonBody` surfaces as `JsonBodyError err`;
the wrappers' failure channels hold only these tagged values, never a raw
thrown value. -/
theorem request_jsonBody_tag_errors {V R J S : Type} :
    (∀ (fetchFn : S → Except V R) (signal : S) (err : V),
        fetchFn signal = Except.error err →
          request fetchFn signal = Except.error (LeadError.FetchError err) ∧
            (LeadError.FetchError err : LeadError V).tag = "FetchError") ∧
      (∀ (jsonPromise : Except V J) (err : V),
          jsonPromise = Except.error err →
            jsonBody jsonPromise = Except.error (LeadError.JsonBodyError err) ∧
              (LeadError.JsonBodyError err : LeadError V).tag = "JsonBodyError") ∧
      (∀ (fetchFn : S → Except V R) (signal : S),
          (∃ r, request fetchFn signal = Except.ok r) ∨
            ∃ err, request fetchFn signal = Except.error (LeadError.FetchError err)) ∧
      ∀ (jsonPromise : Except V J),
        (∃ j, jsonBody jsonPromise = Except.ok j) ∨
          ∃ err, jsonBody jsonPromise = Except.error (LeadError.JsonBodyError err) := by
  refine ⟨?_, ?_, ?_, ?_⟩
  · intro fetchFn signal err h
    exact ⟨by simp [request, tryCatchPromiseInterrupt, h], rfl⟩
  · intro jsonPromise err h
    exact ⟨by simp [jsonBody, tryCatchPromise, h], rfl⟩
  · intro fetchFn signal
    cases h : fetchFn signal with
    | ok r => exact Or.inl ⟨r, by simp [request, tryCatchPromiseInterrupt, h]⟩
    | error v => exact Or.inr ⟨v, by simp [request, tryCatchPromiseInterrupt, h]⟩
  · intro jsonPromise
    cases h : jsonPromise with
    | ok j => exact Or.inl ⟨j, by simp [jsonBody, tryCatchPromise, h]⟩
    | error v => exact Or.inr ⟨v, by simp [jsonBody, tryCatchPromise, h]⟩

/-- Witness for C9: a fetch that rejects with the thrown value `5` makes
`request` fail with `FetchError 5`, and a body decoding rejecting with
`6` makes `jsonBody` fail with `JsonBodyError 6`. -/
theorem request_jsonBody_tag_errors_witness :
    (request (fun _ => (Except.error 5 : Except Nat Unit)) () =
        Except.error (LeadError.FetchError 5) ∧
      (LeadError.FetchError 5 : LeadError Nat).tag = "FetchError") ∧
      jsonBody (Except.error 6 : Except Nat Unit) =
          Except.error (LeadError.JsonBodyError 6) ∧
        (LeadError.JsonBodyError 6 : LeadError Nat).tag = "JsonBodyError" :=
  ⟨(request_jsonBody_tag_errors (V := Nat) (R := Unit) (J := Unit) (S := Unit)).1
      (fun _ => Except.error 5) () 5 rfl,
    (request_jsonBody_tag_errors (V := Nat) (R := Unit) (J := Unit) (S := Unit)).2.1
      (Except.error 6) 6 rfl⟩

/-- C10: the `orDie` variant of `getLead` (`src/unnamed/part_000`) has an
empty typed error channel: its outcome is either the success of the
`leads.ts` pipeline or a defect carrying the very `FetchError` /
`JsonBodyError` the `leads.ts` `getLead` would expose as a typed,
catchable failure — it is never `Exit.fail`.  The concrete instance shows
the contrast: on the same failing fetch, `leads.ts`'s `getLead` fails
with the typed `FetchError` while the `orDie` variant dies with it. -/
theorem getLead_orDie_empty_error_channel :
    (∀ (V R J S : Type) (fetchFn : S → Except V R) (jsonFn : R → Except V J)
        (signal : S),
        (∃ a, getLead fetchFn jsonFn signal = Except.ok a ∧
            getLeadOrDie fetchFn jsonFn signal = Exit.succeed a) ∨
          ∃ err, getLead fetchFn jsonFn signal = Except.error err ∧
            getLeadOrDie fetchFn jsonFn signal = Exit.die err) ∧
      toExit (getLead (fun _ => (Except.error 7 : Except Nat Unit))
          (fun _ => (Except.error 8 : Except Nat Unit)) ()) =
        Exit.fail (LeadError.FetchError 7) ∧
      getLeadOrDie (fun _ => (Except.error 7 : Except Nat Unit))
          (fun _ => (Except.error 8 : Except Nat Unit)) () =
        Exit.die (LeadError.FetchError 7) := by
  refine ⟨?_, rfl, rfl⟩
  intro V R J S fetchFn jsonFn signal
  cases h : getLead fetchFn jsonFn signal with
  | ok a => exact Or.inl ⟨a, rfl, by simp [getLeadOrDie, orDie, h]⟩
  | error e => exact Or.inr ⟨e, rfl, by simp [getLeadOrDie, orDie, h]⟩

end EffectSlides
